import Mathlib

/-!
Verification of the pipette sequence-pipeline library.

The development shallowly embeds the library (file `pipette/pipette.py`,
`pipette/funcs.py`, `pipette/monad/maybe.py`) in Lean:

* Python lazy iterables are modelled as finite `List`s (every claim below
  quantifies over finite sequences);
* Python `int` arguments that may be negative are modelled as `Int`;
* fallible operations (the `ValueError` raised by `itertools.islice` on a
  negative bound, the `TypeError` raised by `functools.reduce` on an empty
  iterable without an initial value, the `TypeError` raised by the Python call
  machinery on duplicate keyword arguments) return `Except String`;
* a keyword-argument dictionary is modelled as an association list in
  insertion order, its keys pairwise distinct, as for a Python `dict`.
-/

namespace PipetteLib

/-! ## The Pipe Stage (`pipette/pipette.py`, class `Pipette`)

A `Pipette` stores an underlying function together with the positional and
named arguments bound so far (`self.func`, `self.args`, `self.kwargs`).
The underlying function takes the eventual sequence (of type `σ`) first,
then the bound positionals and the bound named arguments. -/

structure Pipette (σ ν ρ : Type) where
  func : σ → List ν → List (String × ν) → ρ
  args : List ν
  kwargs : List (String × ν)

variable {σ ν ρ : Type}

/-- Embeds `Pipette.__ror__`: `other | stage` returns
`self.func(other, *self.args, **self.kwargs)`. -/
def Pipette.ror (p : Pipette σ ν ρ) (other : σ) : ρ :=
  p.func other p.args p.kwargs

/-- True when some key of the second keyword map already occurs in the first.
In a Python call `f(**k1, **k2)` a duplicated keyword name raises
`TypeError: got multiple values for keyword argument ...`; this predicate
captures that collision test of the call machinery. -/
def kwargsConflict (k₁ k₂ : List (String × ν)) : Bool :=
  k₂.any (fun e => k₁.any (fun d => d.1 == e.1))

/-- True when some keyword name would bind a named parameter of
`Pipette.__init__(self, func, *args, **kwargs)`.  Both `self` (the new
instance, passed implicitly) and `func` (passed positionally as
`self.func`) already receive positional values, so a keyword of either
name raises `TypeError: got multiple values for argument ...` during
parameter binding; every other keyword name is collected by `**kwargs`. -/
def kwargsBindsParam (ks : List (String × ν)) : Bool :=
  ks.any (fun e => e.1 == "self" || e.1 == "func")

/-- Embeds `Pipette.__call__`: it evaluates
`Pipette(self.func, *self.args, *args, **self.kwargs, **kwargs)`.
The positional arguments concatenate.  For the keyword arguments, CPython
first builds the keyword dictionary of the call from the two `**`
unpackings and raises `TypeError` when a name occurs in both; it then
binds the parameters of `__init__` and raises `TypeError` when a keyword
is named `self` or `func`, since those parameters already received
positional values.  Otherwise the resulting dict holds the old entries
followed by the new ones, in insertion order. -/
def Pipette.call (p : Pipette σ ν ρ) (args : List ν) (kwargs : List (String × ν)) :
    Except String (Pipette σ ν ρ) :=
  if kwargsConflict p.kwargs kwargs then
    Except.error "TypeError: got multiple values for keyword argument"
  else if kwargsBindsParam (p.kwargs ++ kwargs) then
    Except.error "TypeError: got multiple values for argument"
  else
    Except.ok ⟨p.func, p.args ++ args, p.kwargs ++ kwargs⟩

/-! ## The Optional monad (`pipette/monad/maybe.py`) -/

inductive Maybe (α : Type u) where
  | Some : α → Maybe α
  | Nothing : Maybe α
deriving DecidableEq

/-- Embeds `Some.bind` (returns `func(self.value)`) and `Nothing.bind`
(returns `self`, cast to the new type parameter). -/
def Maybe.bind {α : Type u} {β : Type v} : Maybe α → (α → Maybe β) → Maybe β
  | Maybe.Some v, f => f v
  | Maybe.Nothing, _ => Maybe.Nothing

/-- Embeds `Some.map` and `Nothing.map`. -/
def Maybe.map {α : Type u} {β : Type v} : Maybe α → (α → β) → Maybe β
  | Maybe.Some v, f => Maybe.Some (f v)
  | Maybe.Nothing, _ => Maybe.Nothing

/-! ## Slicing combinators (`pipette/funcs.py`: `take`, `skip`)

Both delegate to `itertools.islice`, which raises
`ValueError: Indices for islice() must be None or an integer: 0 <= x <= sys.maxsize.`
on a negative bound, before any element of the source is pulled. -/

def valueErrorIslice : String :=
  "ValueError: Indices for islice() must be None or an integer: 0 <= x <= sys.maxsize."

/-- Embeds `take`: `itertools.islice(iterable, n)` yields the first `n`
elements (fewer if the source exhausts); a negative `n` raises `ValueError`. -/
def take {α : Type u} (xs : List α) (n : Int) : Except String (List α) :=
  if n < 0 then Except.error valueErrorIslice
  else Except.ok (xs.take n.toNat)

/-- Embeds `skip`: `itertools.islice(iterable, n, None)` discards the first
`n` elements and yields the remainder; a negative `n` raises `ValueError`. -/
def skip {α : Type u} (xs : List α) (n : Int) : Except String (List α) :=
  if n < 0 then Except.error valueErrorIslice
  else Except.ok (xs.drop n.toNat)

/-! ## Reduction (`pipette/funcs.py`: `reduce`)

The source checks `if initial is not None`; the Python default `None` is
modelled as `Option.none`.  With an initial value it returns
`functools.reduce(func, iterable, initial)`, a left fold seeded with
`initial`; without one, `functools.reduce(func, iterable)` seeds with the
first element and raises `TypeError` on an empty iterable. -/

def reduce {α : Type u} (xs : List α) (f : α → α → α) (initial : Option α) :
    Except String α :=
  match initial with
  | some i => Except.ok (xs.foldl f i)
  | none =>
    match xs with
    | [] => Except.error "TypeError: reduce() of empty iterable with no initial value"
    | x :: rest => Except.ok (rest.foldl f x)

/-! ## Deduplication (`pipette/funcs.py`: `distinct`)

The source builds a mutable set `seen` and yields
`(x for x in iterable if x not in seen and not seen.add(x))`: an element is
yielded exactly when it is not yet in `seen`, and is added to `seen` as a
side effect of the test.  The set is modelled as the list of elements seen
so far, queried only through membership. -/

def distinctAux {α : Type u} [DecidableEq α] (seen : List α) : List α → List α
  | [] => []
  | x :: xs =>
    if x ∈ seen then distinctAux seen xs
    else x :: distinctAux (x :: seen) xs

/-- Embeds `distinct`: the generator starts with an empty `seen` set. -/
def distinct {α : Type u} [DecidableEq α] (xs : List α) : List α :=
  distinctAux [] xs

/-- Specification-side deduplication, following the words of the spec:
the first occurrence of each element is kept at its position, and all later
duplicates are suppressed. -/
def distinctSpec {α : Type u} [DecidableEq α] : List α → List α
  | [] => []
  | x :: xs => x :: distinctSpec (xs.filter (fun a => decide (a ≠ x)))
termination_by l => l.length
decreasing_by
  simp only [List.length_cons]
  exact Nat.lt_succ_of_le (List.length_filter_le _ _)

/-! ## Chunking (`pipette/funcs.py`: `chunk`)

The source iterates `while chunk := list(itertools.islice(it, size))`,
yielding each non-empty slice of at most `size` consecutive elements; the
loop stops at the first empty slice.  (With `size = 0` every slice is empty
and nothing is yielded; a negative `size` would be rejected by `islice`, so
the model takes a natural-number `size`.) -/

def chunk {α : Type u} (xs : List α) (size : Nat) : List (List α) :=
  if h : (xs.take size).isEmpty then []
  else xs.take size :: chunk (xs.drop size) size
termination_by xs.length
decreasing_by
  simp only [List.length_drop]
  have h1 : xs.take size ≠ [] := by simpa [List.isEmpty_iff] using h
  have h2 : ¬(size = 0 ∨ xs = []) := fun hc => h1 (List.take_eq_nil_iff.mpr hc)
  push_neg at h2
  exact Nat.sub_lt (List.length_pos.mpr h2.2) (Nat.pos_of_ne_zero h2.1)

/-! ## Sorting (`pipette/funcs.py`: `sort_by`)

The source returns `sorted(iterable, key=key_fn)`.  The CPython `sorted` is
a stable sort, ascending by the key; a stable ascending sort is
extensionally determined by the key comparison, so it is modelled by the
(stable) `List.mergeSort` under the relation `key a ≤ key b`. -/

def sort_by {α : Type u} {β : Type v} [LinearOrder β] (xs : List α)
    (key : α → β) : List α :=
  xs.mergeSort (fun a b => decide (key a ≤ key b))

/-! ## Recursive flattening (`pipette/funcs.py`: `traverse`)

A Python value is either a scalar, a scalar-like sequence (`str`/`bytes`,
modelled as `text`), or a nested iterable of values.  `traverse` yields
each element unchanged unless it is an iterable that is not `str`/`bytes`,
in which case it recursively traverses it (`yield from arg | traverse`). -/

inductive PyObj (α : Type u) where
  | scalar : α → PyObj α
  | text : String → PyObj α
  | iter : List (PyObj α) → PyObj α

def traverse {α : Type u} : List (PyObj α) → List (PyObj α)
  | [] => []
  | PyObj.scalar a :: rest => PyObj.scalar a :: traverse rest
  | PyObj.text s :: rest => PyObj.text s :: traverse rest
  | PyObj.iter xs :: rest => traverse xs ++ traverse rest

/-- The nested structure `[1, [2, 3], 4, [5, [6, 7]], 8]` from the spec. -/
def exampleNested : List (PyObj Nat) :=
  [PyObj.scalar 1, PyObj.iter [PyObj.scalar 2, PyObj.scalar 3], PyObj.scalar 4,
   PyObj.iter [PyObj.scalar 5, PyObj.iter [PyObj.scalar 6, PyObj.scalar 7]],
   PyObj.scalar 8]

/-- Concrete stage used to exhibit the behaviour of `__call__` on a
keyword-name collision. -/
def stageX : Pipette Nat Nat Nat :=
  ⟨fun _ _ _ => 0, [], [("x", 0)]⟩

/-! ## Helper lemmas for deduplication -/

theorem distinctAux_eq_spec {α : Type u} [DecidableEq α] (xs : List α) :
    ∀ seen : List α,
      distinctAux seen xs = distinctSpec (xs.filter (fun a => decide (a ∉ seen))) := by
  induction xs with
  | nil => intro seen; simp [distinctAux, distinctSpec]
  | cons x xs ih =>
    intro seen
    by_cases hx : x ∈ seen
    · rw [show distinctAux seen (x :: xs) = distinctAux seen xs from by
        simp [distinctAux, hx]]
      rw [ih seen]
      congr 1
      simp [List.filter_cons, hx]
    · rw [show distinctAux seen (x :: xs) = x :: distinctAux (x :: seen) xs from by
        simp [distinctAux, hx]]
      rw [ih (x :: seen)]
      rw [show (x :: xs).filter (fun a => decide (a ∉ seen))
            = x :: xs.filter (fun a => decide (a ∉ seen)) from by
        simp [List.filter_cons, hx]]
      rw [distinctSpec, List.filter_filter]
      refine congrArg _ (congrArg _ ?_)
      apply List.filter_congr
      intro a _
      by_cases h1 : a = x <;> by_cases h2 : a ∈ seen <;> simp [h1, h2]

theorem distinct_eq_spec {α : Type u} [DecidableEq α] (xs : List α) :
    distinct xs = distinctSpec xs := by
  rw [distinct, distinctAux_eq_spec]
  congr 1
  apply List.filter_eq_self.mpr
  intro a _
  simp

theorem mem_distinctSpec {α : Type u} [DecidableEq α] (xs : List α) :
    ∀ a, a ∈ distinctSpec xs ↔ a ∈ xs := by
  induction xs using distinctSpec.induct with
  | case1 => intro a; simp [distinctSpec]
  | case2 x xs ih =>
    intro a
    rw [distinctSpec]
    by_cases h : a = x
    · simp [h]
    · simp only [List.mem_cons, ih a, List.mem_filter]
      simp [h]

theorem distinctSpec_sublist {α : Type u} [DecidableEq α] (xs : List α) :
    (distinctSpec xs).Sublist xs := by
  induction xs using distinctSpec.induct with
  | case1 => simp [distinctSpec]
  | case2 x xs ih =>
    rw [distinctSpec]
    exact (ih.trans (List.filter_sublist xs)).cons₂ x

theorem nodup_distinctSpec {α : Type u} [DecidableEq α] (xs : List α) :
    (distinctSpec xs).Nodup := by
  induction xs using distinctSpec.induct with
  | case1 => simp [distinctSpec]
  | case2 x xs ih =>
    rw [distinctSpec]
    refine List.Nodup.cons ?_ ih
    intro hmem
    have := (mem_distinctSpec _ x).mp hmem
    simp [List.mem_filter] at this

theorem distinctSpec_append_self {α : Type u} [DecidableEq α] (xs : List α) :
    distinctSpec (xs ++ xs) = distinctSpec xs := by
  induction xs using distinctSpec.induct with
  | case1 => rfl
  | case2 x xs ih =>
    have hx : decide (x ≠ x) = false := by simp
    calc distinctSpec ((x :: xs) ++ (x :: xs))
        = x :: distinctSpec ((xs ++ x :: xs).filter (fun a => decide (a ≠ x))) := by
          rw [List.cons_append, distinctSpec]
      _ = x :: distinctSpec (xs.filter (fun a => decide (a ≠ x))
            ++ xs.filter (fun a => decide (a ≠ x))) := by
          simp [List.filter_append, List.filter_cons]
      _ = x :: distinctSpec (xs.filter (fun a => decide (a ≠ x))) := by rw [ih]
      _ = distinctSpec (x :: xs) := by rw [distinctSpec]

/-! ## Helper lemmas for chunking -/

theorem chunk_eq {α : Type u} (xs : List α) (size : Nat) :
    chunk xs size = if (xs.take size).isEmpty then []
      else xs.take size :: chunk (xs.drop size) size := by
  rw [chunk]
  exact dite_eq_ite

theorem chunk_flatten_aux {α : Type u} :
    ∀ (n : Nat) (xs : List α) (size : Nat), xs.length ≤ n → 1 ≤ size →
      (chunk xs size).flatten = xs := by
  intro n
  induction n with
  | zero =>
    intro xs size hlen _
    have hnil : xs = [] := List.length_eq_zero.mp (Nat.le_zero.mp hlen)
    subst hnil
    simp [chunk_eq]
  | succ n ih =>
    intro xs size hlen hsize
    rw [chunk_eq]
    by_cases hemp : (xs.take size).isEmpty
    · have : size = 0 ∨ xs = [] := List.take_eq_nil_iff.mp (List.isEmpty_iff.mp hemp)
      rcases this with h0 | hnil
      · omega
      · simp [hnil, hemp]
    · rw [if_neg hemp, List.flatten_cons]
      have hdrop : (xs.drop size).length ≤ n := by
        have h1 : xs.take size ≠ [] := fun hc => hemp (List.isEmpty_iff.mpr hc)
        have h2 : ¬(size = 0 ∨ xs = []) := fun hc => h1 (List.take_eq_nil_iff.mpr hc)
        push_neg at h2
        have hpos : 0 < xs.length := List.length_pos.mpr h2.2
        simp only [List.length_drop]
        omega
      rw [ih (xs.drop size) size hdrop hsize]
      exact List.take_append_drop size xs

theorem chunk_sizes_aux {α : Type u} :
    ∀ (n : Nat) (xs : List α) (size : Nat), xs.length ≤ n →
      ∀ c ∈ chunk xs size, c ≠ [] ∧ c.length ≤ size := by
  intro n
  induction n with
  | zero =>
    intro xs size hlen c hc
    have hnil : xs = [] := List.length_eq_zero.mp (Nat.le_zero.mp hlen)
    subst hnil
    simp [chunk_eq] at hc
  | succ n ih =>
    intro xs size hlen c hc
    rw [chunk_eq] at hc
    by_cases hemp : (xs.take size).isEmpty
    · simp [hemp] at hc
    · rw [if_neg hemp, List.mem_cons] at hc
      rcases hc with hc | hc
      · subst hc
        refine ⟨fun hcnil => hemp (List.isEmpty_iff.mpr hcnil), ?_⟩
        simp [List.length_take]
      · have h1 : xs.take size ≠ [] := fun hcnil => hemp (List.isEmpty_iff.mpr hcnil)
        have h2 : ¬(size = 0 ∨ xs = []) := fun hco => h1 (List.take_eq_nil_iff.mpr hco)
        push_neg at h2
        have hpos : 0 < xs.length := List.length_pos.mpr h2.2
        have hdrop : (xs.drop size).length ≤ n := by
          simp only [List.length_drop]
          omega
        exact ih (xs.drop size) size hdrop c hc

theorem chunk_full_aux {α : Type u} :
    ∀ (n : Nat) (xs : List α) (size : Nat), xs.length ≤ n →
      ∀ c ∈ (chunk xs size).dropLast, c.length = size := by
  intro n
  induction n with
  | zero =>
    intro xs size hlen c hc
    have hnil : xs = [] := List.length_eq_zero.mp (Nat.le_zero.mp hlen)
    subst hnil
    simp [chunk_eq] at hc
  | succ n ih =>
    intro xs size hlen c hc
    rw [chunk_eq] at hc
    by_cases hemp : (xs.take size).isEmpty
    · simp [hemp] at hc
    · rw [if_neg hemp] at hc
      have h1 : xs.take size ≠ [] := fun hcnil => hemp (List.isEmpty_iff.mpr hcnil)
      have h2 : ¬(size = 0 ∨ xs = []) := fun hco => h1 (List.take_eq_nil_iff.mpr hco)
      push_neg at h2
      have hpos : 0 < xs.length := List.length_pos.mpr h2.2
      have hdrop : (xs.drop size).length ≤ n := by
        simp only [List.length_drop]
        omega
      rcases hrest : chunk (xs.drop size) size with _ | ⟨r, rs⟩
      · rw [hrest] at hc
        simp at hc
      · rw [hrest, List.dropLast_cons_of_ne_nil (by simp : r :: rs ≠ []),
          List.mem_cons] at hc
        rcases hc with hc | hc
        · subst hc
          have hne : (xs.drop size).take size ≠ [] := by
            intro hcnil
            rw [chunk_eq, List.isEmpty_iff.mpr hcnil] at hrest
            simp at hrest
          have hds : xs.drop size ≠ [] := by
            intro hcnil
            exact hne (List.take_eq_nil_iff.mpr (Or.inr hcnil))
          have hlt : size < xs.length := by
            have := List.drop_eq_nil_iff.not.mp hds
            push_neg at this
            omega
          simp [List.length_take]
          omega
        · rw [← hrest] at hc
          exact ih (xs.drop size) size hdrop c hc

/-! ## Helper lemmas for sorting -/

theorem keyLE_trans {α : Type u} {β : Type v} [LinearOrder β] (key : α → β) :
    ∀ a b c : α, decide (key a ≤ key b) = true → decide (key b ≤ key c) = true →
      decide (key a ≤ key c) = true := by
  intro a b c hab hbc
  simp only [decide_eq_true_iff] at hab hbc ⊢
  exact le_trans hab hbc

theorem keyLE_total {α : Type u} {β : Type v} [LinearOrder β] (key : α → β) :
    ∀ a b : α, (decide (key a ≤ key b) || decide (key b ≤ key a)) = true := by
  intro a b
  simp only [Bool.or_eq_true, decide_eq_true_iff]
  exact le_total _ _

theorem sort_by_filter_key {α : Type u} {β : Type v} [LinearOrder β]
    (xs : List α) (key : α → β) (k : β) :
    (sort_by xs key).filter (fun a => decide (key a = k))
      = xs.filter (fun a => decide (key a = k)) := by
  have hpair : (xs.filter (fun a => decide (key a = k))).Pairwise
      (fun a b => (fun a b => decide (key a ≤ key b)) a b = true) := by
    apply List.pairwise_of_forall_mem_list
    intro a ha b hb
    have hka : key a = k := by
      have := (List.mem_filter.mp ha).2
      simpa using this
    have hkb : key b = k := by
      have := (List.mem_filter.mp hb).2
      simpa using this
    simp [hka, hkb]
  have hstable : (xs.filter (fun a => decide (key a = k))).Sublist (sort_by xs key) :=
    List.sublist_mergeSort (keyLE_trans key) (keyLE_total key) hpair
      (List.filter_sublist xs)
  have hperm : ((sort_by xs key).filter (fun a => decide (key a = k))).Perm
      (xs.filter (fun a => decide (key a = k))) :=
    (List.mergeSort_perm xs _).filter _
  have hsub2 : (xs.filter (fun a => decide (key a = k))).Sublist
      ((sort_by xs key).filter (fun a => decide (key a = k))) := by
    have h4 := List.Sublist.filter (fun a => decide (key a = k)) hstable
    rwa [show (xs.filter (fun a => decide (key a = k))).filter
          (fun a => decide (key a = k))
        = xs.filter (fun a => decide (key a = k)) from
      List.filter_eq_self.mpr (fun a ha => (List.mem_filter.mp ha).2)] at h4
  exact (hsub2.eq_of_length hperm.length_eq.symm).symm

/-! ## Helper lemmas for recursive flattening -/

theorem traverse_append {α : Type u} (l₁ : List (PyObj α)) :
    ∀ l₂ : List (PyObj α), traverse (l₁ ++ l₂) = traverse l₁ ++ traverse l₂ := by
  induction l₁ using traverse.induct with
  | case1 => intro l₂; simp [traverse]
  | case2 a rest ih => intro l₂; simp [traverse, ih]
  | case3 s rest ih => intro l₂; simp [traverse, ih]
  | case4 xs rest ih1 ih2 =>
    intro l₂
    show traverse (PyObj.iter xs :: (rest ++ l₂)) = _
    rw [traverse, traverse]
    rw [ih2 l₂, List.append_assoc]

theorem traverse_flat {α : Type u} (l : List (PyObj α)) :
    ∀ v ∈ traverse l, ∀ ys : List (PyObj α), v ≠ PyObj.iter ys := by
  induction l using traverse.induct with
  | case1 => intro v hv; simp [traverse] at hv
  | case2 a rest ih =>
    intro v hv ys
    rw [traverse, List.mem_cons] at hv
    rcases hv with hv | hv
    · subst hv; intro hc; cases hc
    · exact ih v hv ys
  | case3 s rest ih =>
    intro v hv ys
    rw [traverse, List.mem_cons] at hv
    rcases hv with hv | hv
    · subst hv; intro hc; cases hc
    · exact ih v hv ys
  | case4 xs rest ih1 ih2 =>
    intro v hv ys
    rw [traverse, List.mem_append] at hv
    rcases hv with hv | hv
    · exact ih1 v hv ys
    · exact ih2 v hv ys

/-! ## Theorems for the Pipe Stage claims -/

/-- C1: applying a stage to a sequence via the pipe operation
(`__ror__`, sequence on the left) returns exactly the underlying
function applied to the sequence prepended to the bound positional
arguments, together with the bound named arguments:
`s | Pipette(f, *a, **k) = f(s, *a, **k)`. -/
theorem C1_ror_applies_function (f : σ → List ν → List (String × ν) → ρ)
    (a : List ν) (k : List (String × ν)) (s : σ) :
    Pipette.ror ⟨f, a, k⟩ s = f s a k := rfl

/-- C2 counterexample: the claim asserts that re-supplying an
already-bound named argument succeeds and takes the new value.  On the
stage with bound named argument `x = 0`, calling with `x = 1` does not
return a new stage: the call raises `TypeError`, because Python rejects
duplicate keyword names across the `**self.kwargs, **kwargs` unpackings
in `Pipette.__call__`. -/
theorem C2_kwarg_collision_raises :
    Pipette.call stageX [] [("x", 1)] =
      Except.error "TypeError: got multiple values for keyword argument" := by
  rfl

/-- C2 (amended): calling a stage with extra positional and named
arguments returns a new stage with the same underlying function, the
concatenated positional arguments, and the two named-argument maps
appended, provided the new names do not collide with the already-bound
named arguments and no named argument is called `self` or `func`; the
original stage is unchanged (the operation is pure).  Re-supplying an
already-bound named argument instead raises `TypeError` (see the
counterexample), as does a named argument that binds a named parameter
of the constructor (`self` or `func`). -/
theorem C2_call_binds_disjoint (p : Pipette σ ν ρ) (a : List ν)
    (k : List (String × ν)) (h : kwargsConflict p.kwargs k = false)
    (hp : kwargsBindsParam (p.kwargs ++ k) = false) :
    Pipette.call p a k = Except.ok ⟨p.func, p.args ++ a, p.kwargs ++ k⟩ := by
  simp [Pipette.call, h, hp]

/-- Witness for C2 on a concrete stage: binding a fresh positional and the
fresh named argument `y = 1` on `stageX` succeeds and appends. -/
theorem C2_call_binds_disjoint_witness :
    Pipette.call stageX [5] [("y", 1)] =
      Except.ok ⟨stageX.func, [5], [("x", 0), ("y", 1)]⟩ :=
  C2_call_binds_disjoint stageX [5] [("y", 1)] (by rfl) (by rfl)

/-! ## Theorems for the slicing and reduction claims -/

/-- C3: on an empty sequence, `reduce` without an initial value raises the
empty-input error, and `reduce` with an initial value returns that initial
value unchanged for every combine function (the combine function is never
invoked, hence the result does not depend on it). -/
theorem C3_reduce_empty {α : Type u} :
    (∀ f : α → α → α,
      reduce ([] : List α) f none =
        Except.error "TypeError: reduce() of empty iterable with no initial value")
    ∧ (∀ (f : α → α → α) (i : α), reduce ([] : List α) f (some i) = Except.ok i) :=
  ⟨fun _ => rfl, fun _ _ => rfl⟩

/-- C4: for every finite sequence `xs` and integer `n ≥ 0`, `take` and
`skip` succeed, the length of `take xs n` is at most `min n (length xs)`,
and `take xs n ++ skip xs n` reconstructs `xs` exactly. -/
theorem C4_take_skip_reconstruct {α : Type u} (xs : List α) (n : Int)
    (h : 0 ≤ n) :
    ∃ t s, take xs n = Except.ok t ∧ skip xs n = Except.ok s
      ∧ t.length ≤ min n.toNat xs.length ∧ t ++ s = xs := by
  refine ⟨xs.take n.toNat, xs.drop n.toNat, ?_, ?_, ?_, ?_⟩
  · simp [take, not_lt.mpr h]
  · simp [skip, not_lt.mpr h]
  · simp [List.length_take]
  · exact List.take_append_drop _ xs

/-- Witness for C4 at `xs = [10, 20, 30]`, `n = 2`. -/
theorem C4_take_skip_reconstruct_witness :
    ∃ t s, take [10, 20, 30] (2 : Int) = Except.ok t
      ∧ skip [10, 20, 30] (2 : Int) = Except.ok s
      ∧ t.length ≤ min (2 : Int).toNat 3 ∧ t ++ s = [10, 20, 30] :=
  C4_take_skip_reconstruct [10, 20, 30] 2 (by decide)

/-- C10: for every sequence and every negative `n`, `take` and `skip`
deterministically raise `ValueError` (negative `n` is rejected, not treated
as zero), and the result does not depend on the source sequence — the
source is not consumed: the outcome at `xs` coincides with the outcome at
any other sequence `ys`. -/
theorem C10_negative_rejected {α : Type u} (xs ys : List α) (n : Int)
    (h : n < 0) :
    take xs n = Except.error valueErrorIslice
    ∧ skip xs n = Except.error valueErrorIslice
    ∧ take xs n = take ys n ∧ skip xs n = skip ys n := by
  simp [take, skip, h]

/-- Witness for C10 at `n = -1` and two different source sequences. -/
theorem C10_negative_rejected_witness :
    take [7] (-1 : Int) = Except.error valueErrorIslice
    ∧ skip [7] (-1 : Int) = Except.error valueErrorIslice
    ∧ take [7] (-1 : Int) = take [8, 9] (-1 : Int)
    ∧ skip [7] (-1 : Int) = skip [8, 9] (-1 : Int) :=
  C10_negative_rejected [7] [8, 9] (-1) (by decide)

/-- C5: for every finite sequence of elements with decidable equality
(the model of hashable Python values), `distinct (xs ++ xs) = distinct xs`,
and `distinct` yields each element exactly once at the position of its
first occurrence, suppressing all later duplicates: it coincides with the
specification function `distinctSpec` (keep the head, drop later equals,
recurse), contains no duplicates, is a sublist of the input (so
first-occurrence order is preserved), and has exactly the elements of the
input. -/
theorem C5_distinct_dedup {α : Type u} [DecidableEq α] (xs : List α) :
    distinct (xs ++ xs) = distinct xs
    ∧ distinct xs = distinctSpec xs
    ∧ (distinct xs).Nodup
    ∧ (distinct xs).Sublist xs
    ∧ (∀ a, a ∈ distinct xs ↔ a ∈ xs) := by
  refine ⟨?_, distinct_eq_spec xs, ?_, ?_, ?_⟩
  · rw [distinct_eq_spec, distinct_eq_spec, distinctSpec_append_self]
  · rw [distinct_eq_spec]; exact nodup_distinctSpec xs
  · rw [distinct_eq_spec]; exact distinctSpec_sublist xs
  · intro a; rw [distinct_eq_spec]; exact mem_distinctSpec xs a

/-! ## Theorems for the Optional monad claim -/

/-- C8: the Optional monad satisfies the three monad laws for `bind`:
left identity (`Some(v).bind(f) = f(v)`), right identity
(`m.bind(Some) = m`) and associativity
(`m.bind(f).bind(g) = m.bind(fun x => f(x).bind(g))`). -/
theorem C8_maybe_monad_laws {α : Type u} {β : Type v} {γ : Type w} :
    (∀ (v : α) (f : α → Maybe β), (Maybe.Some v).bind f = f v)
    ∧ (∀ m : Maybe α, m.bind Maybe.Some = m)
    ∧ (∀ (m : Maybe α) (f : α → Maybe β) (g : β → Maybe γ),
        (m.bind f).bind g = m.bind (fun x => (f x).bind g)) := by
  refine ⟨fun v f => rfl, fun m => ?_, fun m f g => ?_⟩
  · cases m <;> rfl
  · cases m <;> rfl

/-! ## Theorems for the chunking, sorting and flattening claims -/

/-- C6: for every finite sequence `xs` and every `size ≥ 1`, `chunk`
yields consecutive non-empty groups of at most `size` elements, every group
except possibly the final one has exactly `size` elements, and flattening
the groups in order reproduces `xs` exactly. -/
theorem C6_chunk_reconstruct {α : Type u} (xs : List α) (size : Nat)
    (h : 1 ≤ size) :
    (chunk xs size).flatten = xs
    ∧ (∀ c ∈ chunk xs size, c ≠ [] ∧ c.length ≤ size)
    ∧ (∀ c ∈ (chunk xs size).dropLast, c.length = size) :=
  ⟨chunk_flatten_aux xs.length xs size le_rfl h,
   chunk_sizes_aux xs.length xs size le_rfl,
   chunk_full_aux xs.length xs size le_rfl⟩

/-- Witness for C6 at `xs = [1, 2, 3, 4, 5]`, `size = 2`. -/
theorem C6_chunk_reconstruct_witness :
    (chunk [1, 2, 3, 4, 5] 2).flatten = [1, 2, 3, 4, 5]
    ∧ (∀ c ∈ chunk [1, 2, 3, 4, 5] 2, c ≠ [] ∧ c.length ≤ 2)
    ∧ (∀ c ∈ (chunk [1, 2, 3, 4, 5] 2).dropLast, c.length = 2) :=
  C6_chunk_reconstruct [1, 2, 3, 4, 5] 2 (by decide)

/-- C7: for every finite sequence and every key function into a linearly
ordered type, `sort_by` returns the elements in ascending key order, the
output is a permutation of the input, and the sort is stable: for every
key value `k`, the subsequence of elements whose key equals `k` is exactly
the corresponding subsequence of the input, in the same relative order. -/
theorem C7_sort_by_stable_sorted {α : Type u} {β : Type v} [LinearOrder β]
    (xs : List α) (key : α → β) :
    List.Pairwise (fun a b => key a ≤ key b) (sort_by xs key)
    ∧ (sort_by xs key).Perm xs
    ∧ ∀ k, (sort_by xs key).filter (fun a => decide (key a = k))
        = xs.filter (fun a => decide (key a = k)) := by
  refine ⟨?_, List.mergeSort_perm xs _, fun k => sort_by_filter_key xs key k⟩
  have := @List.sorted_mergeSort α (fun a b => decide (key a ≤ key b))
    (keyLE_trans key) (keyLE_total key) xs
  exact this.imp (fun hab => by simpa using hab)

/-- C9: `traverse` recursively flattens arbitrarily deep nesting into a
single flat sequence in left-to-right order (it distributes over
concatenation, passes scalars and scalar-like text through unchanged, and
replaces a nested sequence by its own traversal), the result contains no
nested sequence, and on `[1, [2, 3], 4, [5, [6, 7]], 8]` it yields
`[1, 2, 3, 4, 5, 6, 7, 8]`. -/
theorem C9_traverse_flattens {α : Type u} :
    (∀ l₁ l₂ : List (PyObj α), traverse (l₁ ++ l₂) = traverse l₁ ++ traverse l₂)
    ∧ (∀ a : α, traverse [PyObj.scalar a] = [PyObj.scalar a])
    ∧ (∀ s : String, traverse [(PyObj.text s : PyObj α)] = [PyObj.text s])
    ∧ (∀ xs : List (PyObj α), traverse [PyObj.iter xs] = traverse xs)
    ∧ (∀ l : List (PyObj α), ∀ v ∈ traverse l, ∀ ys, v ≠ PyObj.iter ys)
    ∧ traverse exampleNested = (List.range 8).map (fun n => PyObj.scalar (n + 1)) := by
  refine ⟨fun l₁ l₂ => traverse_append l₁ l₂, fun a => by simp [traverse],
    fun s => by simp [traverse], fun xs => by simp [traverse], traverse_flat, ?_⟩
  show traverse exampleNested
      = [PyObj.scalar 1, PyObj.scalar 2, PyObj.scalar 3, PyObj.scalar 4,
         PyObj.scalar 5, PyObj.scalar 6, PyObj.scalar 7, PyObj.scalar 8]
  simp [exampleNested, traverse]

end PipetteLib
